import Mathlib

/-!
Shallow embedding of `src/ArrowFunctions.cpp` (Arkouda's Arrow/Parquet glue).

The C++ file wraps the Arrow/Parquet library: `cpp_getNumRows`,
`cpp_getType`, `cpp_readColumnByName` and `cpp_writeColumnToParquet`.
We model a Parquet file as the data the writer produces: a schema (ordered
list of named, typed fields) plus a list of row groups, each row group
holding one encoded column chunk per schema column.  Encoded values are
stored as 64- or 32-bit *bit patterns* (`Nat` below the width bound);
decoding interprets them as two's-complement signed integers, exactly as
the C++ readers deliver `int64_t` / `int32_t` values.

Library calls are modelled at the granularity the C++ code observes them:
`ReadBatch(batchSize, …)` consumes up to `batchSize` values of the chunk,
`HasNext` tests for remaining values, `WriteBatch` appends a batch,
`Close` either succeeds or fails.  Loops whose C++ termination depends on
runtime values are given fuel; `none` marks divergence (the C++ loop would
never exit).  Failure channels are kept apart: a tagged `ARROWERROR`
return with a message handed back through `errMsg` (`taggedError`) versus
a C++ exception escaping the boundary (`thrown`, produced by
`PARQUET_ASSIGN_OR_THROW` and by unchecked throwing calls).
-/

/-- Two's-complement reading of a 64-bit pattern, as `int64_t` delivers it. -/
def toSigned64 (bits : Nat) : Int :=
  if bits < 2 ^ 63 then (bits : Int) else (bits : Int) - 2 ^ 64

/-- Two's-complement reading of a 32-bit pattern, as `int32_t` delivers it. -/
def toSigned32 (bits : Nat) : Int :=
  if bits < 2 ^ 31 then (bits : Int) else (bits : Int) - 2 ^ 32

/-- The 64-bit pattern stored for an `int64_t` value (its value mod `2^64`). -/
def toBits64 (v : Int) : Nat :=
  (v % (2 ^ 64 : Int)).toNat

/-- Arrow physical/logical type of a schema field (`arrow::Type::id()`). -/
inductive ArrowTypeId
  | int64
  | int32
  | uint64
  | timestamp
  | other
  deriving DecidableEq, Repr

/-- One schema field: column name and its declared type. -/
structure SchemaField where
  name : String
  type : ArrowTypeId
  deriving DecidableEq, Repr

/-- One row group: one encoded chunk (list of stored bit patterns) per
schema column, plus the group's row count kept in the file metadata. -/
structure RowGroup where
  chunks : List (List Nat)
  numRows : Nat
  deriving DecidableEq, Repr

/-- A Parquet file as the reader sees it: schema and row groups. -/
structure ParquetFile where
  schema : List SchemaField
  rowGroups : List RowGroup
  deriving DecidableEq, Repr

/-- Return codes of `cpp_getType` (the `ARROW…` constants of
`ArrowFunctions.h`, which only tag the outcome). -/
inductive TypeCode
  | tInt64
  | tInt32
  | tUint64
  | tTimestamp
  | tUndefined
  | tError
  deriving DecidableEq, Repr

/-- `Schema::GetFieldIndex` / `ColumnIndex`: index of the first field with
the given name, `none` when absent (the C++ `-1`). -/
def fieldIndex : List SchemaField → String → Option Nat
  | [], _ => none
  | f :: rest, n => if f.name = n then some 0 else (fieldIndex rest n).map (· + 1)

/-- `cpp_getType` (ArrowFunctions.cpp lines 63–97), with the file already
opened: looks the column up in the schema; when absent builds the
`"Dataset: … does not exist in file: …"` message, stores it in `errMsg`
(the `Option String` component) and returns `ARROWERROR`; otherwise maps
the Arrow type id to the `ARROW…` code. -/
def cpp_getType (filename : String) (file : ParquetFile) (colname : String) :
    TypeCode × Option String :=
  match fieldIndex file.schema colname with
  | none =>
      (.tError, some ("Dataset: " ++ colname ++ " does not exist in file: " ++ filename))
  | some idx =>
      match (file.schema.getD idx (SchemaField.mk "" .other)).type with
      | .int64 => (.tInt64, none)
      | .int32 => (.tInt32, none)
      | .uint64 => (.tUint64, none)
      | .timestamp => (.tTimestamp, none)
      | .other => (.tUndefined, none)

/-- `cpp_getNumRows` (lines 52–61) with the file already opened: the
metadata `num_rows()`, i.e. the total row count over all row groups. -/
def cpp_getNumRows (file : ParquetFile) : Int :=
  ((file.rowGroups.map (fun g => g.numRows)).sum : Nat)

/-- Elementwise stores `chpl_ptr[i] = v; chpl_ptr[i+1] = …` for a batch of
decoded values, mirroring how `ReadBatch` fills the caller's buffer. -/
def storeList : List Int → Nat → List Int → List Int
  | buf, _, [] => buf
  | buf, i, v :: vs => storeList (buf.set i v) (i + 1) vs

/-- The `ARROWINT64` read loop (lines 131–139): while `HasNext`,
`ReadBatch(batchSize, …, &chpl_ptr[i], &values_read)` decodes the next
`batchSize` stored patterns as `int64_t` into the buffer and advances `i`.
Fuel bounds the iterations; `none` is the diverging loop (possible only
when `b = 0`, where `ReadBatch` consumes nothing). -/
def readBatchLoop64 : Nat → Nat → List Nat → List Int → Nat → Option (List Int × Nat)
  | _, _, [], buf, i => some (buf, i)
  | 0, _, _ :: _, _, _ => none
  | fuel + 1, b, v :: rest, buf, i =>
      let batch := (v :: rest).take b
      readBatchLoop64 fuel b ((v :: rest).drop b)
        (storeList buf i (batch.map toSigned64)) (i + batch.length)

/-- The `ARROWUINT64` read loop (lines 140–148).  The C++ branch is
textually identical to the `ARROWINT64` branch: the stored 64-bit patterns
are written to the `int64_t*` buffer with no value transformation. -/
def readBatchLoopU64 : Nat → Nat → List Nat → List Int → Nat → Option (List Int × Nat)
  | _, _, [], buf, i => some (buf, i)
  | 0, _, _ :: _, _, _ => none
  | fuel + 1, b, v :: rest, buf, i =>
      let batch := (v :: rest).take b
      readBatchLoopU64 fuel b ((v :: rest).drop b)
        (storeList buf i (batch.map toSigned64)) (i + batch.length)

/-- The `ARROWINT32` read loop (lines 149–163): `ReadBatch` decodes into
the `int32_t` scratch buffer `tmpArr`, then `chpl_ptr[i+j] =
(int64_t)tmpArr[j]` widens each element (the C cast sign-extends, so the
stored `Int` value is unchanged). -/
def readBatchLoop32 : Nat → Nat → List Nat → List Int → Nat → Option (List Int × Nat)
  | _, _, [], buf, i => some (buf, i)
  | 0, _, _ :: _, _, _ => none
  | fuel + 1, b, v :: rest, buf, i =>
      let batch := (v :: rest).take b
      let tmpArr := batch.map toSigned32
      readBatchLoop32 fuel b ((v :: rest).drop b)
        (storeList buf i tmpArr) (i + batch.length)

/-- Result of `cpp_readColumnByName` as the caller observes it: the return
code, the `errMsg` out-parameter, and the caller's buffer after the call. -/
inductive ReadOutcome
  | ok (buf : List Int)
  | err (msg : String) (buf : List Int)
  | undef (msg : Option String) (buf : List Int)
  deriving DecidableEq, Repr

/-- The row-group loop of `cpp_readColumnByName` (lines 111–164): for each
row group, re-look the column index up (`ColumnIndex`, lines 119–127,
returning the not-found message when negative), pick the reader branch by
the resolved type, and run the batch loop over the group's chunk.  The
chunk's length is enough fuel whenever `b ≥ 1`. -/
def readRowGroups (filename colname : String) (sch : List SchemaField) (ty : TypeCode)
    (b : Nat) : List RowGroup → List Int → Nat →
    Option (Except (String × List Int) (List Int))
  | [], buf, _ => some (.ok buf)
  | g :: gs, buf, i =>
      match fieldIndex sch colname with
      | none =>
          some (.error
            ("Dataset: " ++ colname ++ " does not exist in file: " ++ filename, buf))
      | some idx =>
          let chunk := g.chunks.getD idx []
          let step :=
            if ty = .tInt64 then readBatchLoop64 chunk.length b chunk buf i
            else if ty = .tUint64 then readBatchLoopU64 chunk.length b chunk buf i
            else readBatchLoop32 chunk.length b chunk buf i
          match step with
          | none => none
          | some (buf2, i2) => readRowGroups filename colname sch ty b gs buf2 i2

/-- `cpp_readColumnByName` (lines 99–168), file already opened: resolve the
type; if it is one of `ARROWINT64`, `ARROWINT32`, `ARROWUINT64`, run the
row-group loop, else return `ARROWUNDEFINED` leaving the buffer untouched
(`numElems` is accepted and ignored, as in the C++ signature). -/
def cpp_readColumnByName (filename : String) (file : ParquetFile)
    (chpl_arr : List Int) (colname : String) (numElems batchSize : Int) :
    Option ReadOutcome :=
  let tm := cpp_getType filename file colname
  if tm.1 = .tInt64 ∨ tm.1 = .tInt32 ∨ tm.1 = .tUint64 then
    match readRowGroups filename colname file.schema tm.1 batchSize.toNat
        file.rowGroups chpl_arr 0 with
    | none => none
    | some (.ok buf) => some (.ok buf)
    | some (.error (m, buf)) => some (.err m buf)
  else some (.undef tm.2 chpl_arr)

/-- Outcomes of the fallible library calls `cpp_writeColumnToParquet`
makes, one slot per call site: `FileOutputStream::Open`, `WriteBatch`,
`ParquetFileWriter::Close`, `FileOutputStream::Close`. -/
structure WriteEnv where
  openResult : Except String Unit
  writeBatchResult : Except String Unit
  writerCloseResult : Except String Unit
  streamCloseResult : Except String Unit
  deriving Repr

/-- The environment in which every library call succeeds. -/
def okEnv : WriteEnv :=
  ⟨.ok (), .ok (), .ok (), .ok ()⟩

/-- What the caller of `cpp_writeColumnToParquet` observes: success, a
tagged `ARROWERROR` with message (`errMsg`), a C++ exception escaping the
boundary, or a non-terminating loop. -/
inductive WriteOutcome
  | success (file : ParquetFile)
  | taggedError (msg : String)
  | thrown (msg : String)
  | diverge
  deriving DecidableEq, Repr

/-- The row-group emission loop of `cpp_writeColumnToParquet`
(lines 194–208): while `numLeft > 0`, append a row group, write
`batchSize = min(numLeft, rowGroupSize)` values from `chpl_ptr[i]`, and
advance.  `WriteBatch` throwing (`wb = .error`) aborts the loop with the
escaping exception's message; fuel exhaustion (`none`) is the loop that
never exits. -/
def writeLoop (wb : Except String Unit) (values : List Int) (rowGroupSize : Int) :
    Nat → Int → Int → List (List Int) → Option (Except String (List (List Int)))
  | 0, numLeft, _, acc => if numLeft ≤ 0 then some (.ok acc) else none
  | fuel + 1, numLeft, i, acc =>
      if numLeft ≤ 0 then some (.ok acc)
      else
        match wb with
        | .error m => some (.error m)
        | .ok _ =>
            let batchSize := if numLeft < rowGroupSize then numLeft else rowGroupSize
            let batch := (values.drop i.toNat).take batchSize.toNat
            writeLoop wb values rowGroupSize fuel (numLeft - batchSize)
              (i + batchSize) (acc ++ [batch])

/-- `cpp_writeColumnToParquet` (lines 170–214): open the output stream with
`PARQUET_ASSIGN_OR_THROW` (a failure THROWS, lines 174–176), declare one
`INT64` column whose converted type is `NONE` when `dtype == 1` and
`UINT_64` otherwise (lines 180–183), run the row-group loop, call the
unchecked throwing `file_writer->Close()` (line 210), then check
`out_file->Close()` through `ARROWSTATUS_OK` (line 211) — only this last
failure is returned as a tagged error.  `colnum` is accepted and ignored,
as in the C++ code. -/
def cpp_writeColumnToParquet (env : WriteEnv) (filename : String)
    (chpl_arr : List Int) (colnum : Int) (dsetname : String)
    (numelems rowGroupSize dtype : Int) : WriteOutcome :=
  match env.openResult with
  | .error m => .thrown m
  | .ok _ =>
      let fieldType := if dtype = 1 then ArrowTypeId.int64 else ArrowTypeId.uint64
      match writeLoop env.writeBatchResult chpl_arr rowGroupSize
          numelems.toNat numelems 0 [] with
      | none => .diverge
      | some (.error m) => .thrown m
      | some (.ok groups) =>
          match env.writerCloseResult with
          | .error m => .thrown m
          | .ok _ =>
              match env.streamCloseResult with
              | .error m => .taggedError m
              | .ok _ =>
                  .success ⟨[⟨dsetname, fieldType⟩],
                    groups.map (fun g => ⟨[g.map toBits64], g.length⟩)⟩

/-- Specification-side description of the batches the write loop emits:
chunks of `R` consecutive elements (fuel-bounded like the loop itself). -/
def chunksF : Nat → Nat → List Int → List (List Int)
  | _, _, [] => []
  | 0, _, _ :: _ => []
  | fuel + 1, r, v :: rest =>
      (v :: rest).take r :: chunksF fuel r ((v :: rest).drop r)

/-! ### Arithmetic facts about the value codecs -/

/-- Encoding an in-range `int64_t` value and decoding the stored pattern
returns the value: the signed 64-bit round trip. -/
theorem toSigned64_toBits64 (v : Int) (hlo : -(2 ^ 63) ≤ v) (hhi : v < 2 ^ 63) :
    toSigned64 (toBits64 v) = v := by
  unfold toSigned64 toBits64
  rcases le_or_lt 0 v with hv | hv
  · have hmod : v % (2 ^ 64 : Int) = v :=
      Int.emod_eq_of_lt hv (by omega)
    rw [hmod]
    have hvnat : ((v.toNat : Int)) = v := Int.toNat_of_nonneg hv
    have hlt : v.toNat < 2 ^ 63 := by omega
    simp only [hlt, if_pos, hvnat]
  · have hmod : v % (2 ^ 64 : Int) = v + 2 ^ 64 := by
      have h1 : (v + 2 ^ 64) % (2 ^ 64 : Int) = v % (2 ^ 64 : Int) := by
        have := Int.add_mul_emod_self_left (a := v) (b := (2 ^ 64 : Int)) (c := 1)
        simpa using this
      have h2 : (v + 2 ^ 64) % (2 ^ 64 : Int) = v + 2 ^ 64 :=
        Int.emod_eq_of_lt (by omega) (by omega)
      omega
    rw [hmod]
    have hge : ¬((v + 2 ^ 64).toNat < 2 ^ 63) := by omega
    simp only [hge, if_neg, not_false_iff]
    omega

/-- Decoding a stored 64-bit pattern and re-encoding the delivered
`int64_t` value reproduces the pattern: the caller's unsigned
reinterpretation sees the stored bits unchanged. -/
theorem toBits64_toSigned64 (p : Nat) (hp : p < 2 ^ 64) :
    toBits64 (toSigned64 p) = p := by
  unfold toSigned64 toBits64
  by_cases h : p < 2 ^ 63
  · simp only [h, if_pos]
    rw [Int.emod_eq_of_lt (by omega) (by omega)]
    omega
  · simp only [h, if_neg, not_false_iff]
    have hmod : ((p : Int) - 2 ^ 64) % (2 ^ 64 : Int) = (p : Int) := by
      have h1 : ((p : Int) - 2 ^ 64 + 2 ^ 64 * 1) % (2 ^ 64 : Int)
          = ((p : Int) - 2 ^ 64) % (2 ^ 64 : Int) :=
        Int.add_mul_emod_self_left ((p : Int) - 2 ^ 64) (2 ^ 64) 1
      have h2 : ((p : Int) - 2 ^ 64 + 2 ^ 64 * 1) = (p : Int) := by ring
      rw [h2] at h1
      rw [← h1, Int.emod_eq_of_lt (by omega) (by omega)]
    rw [hmod]
    omega

/-- The stored pattern of `-1` as a 32-bit value decodes to `-1`, the
sign-extended value, not to `4294967295`. -/
theorem toSigned32_neg_one : toSigned32 (2 ^ 32 - 1) = -1 := by decide

/-! ### Lemmas about `storeList` -/

/-- Storing two batches back to back is storing their concatenation. -/
theorem storeList_append (xs : List Int) :
    ∀ (ys buf : List Int) (i : Nat),
      storeList (storeList buf i xs) (i + xs.length) ys = storeList buf i (xs ++ ys) := by
  induction xs with
  | nil => intro ys buf i; simp [storeList]
  | cons x xs ih =>
      intro ys buf i
      simp only [storeList, List.cons_append, List.length_cons]
      have harith : i + (xs.length + 1) = (i + 1) + xs.length := by omega
      rw [harith, ih]
      rfl

/-- Taking the first `i + 1` elements after a `set` at position `i`. -/
theorem take_set_succ : ∀ (buf : List Int) (i : Nat) (x : Int), i < buf.length →
    (buf.set i x).take (i + 1) = buf.take i ++ [x]
  | [], i, x, h => by simp at h
  | _ :: tl, 0, x, _ => by simp
  | hd :: tl, i + 1, x, h => by
      simp only [List.set_cons_succ, List.take_succ_cons]
      rw [take_set_succ tl i x (by simpa using h)]
      simp

/-- A store that ends exactly at the buffer's end overwrites its tail. -/
theorem storeList_full (xs : List Int) :
    ∀ (buf : List Int) (i : Nat), buf.length = i + xs.length →
      storeList buf i xs = buf.take i ++ xs := by
  induction xs with
  | nil =>
      intro buf i h
      simp only [List.length_nil] at h
      simp [storeList, List.take_of_length_le (by omega : buf.length ≤ i)]
  | cons x xs ih =>
      intro buf i h
      simp only [List.length_cons] at h
      simp only [storeList]
      have hlen : (buf.set i x).length = (i + 1) + xs.length := by
        simp only [List.length_set]; omega
      rw [ih (buf.set i x) (i + 1) hlen]
      have hi : i < buf.length := by omega
      rw [take_set_succ buf i x hi]
      simp

/-! ### Characterizing the three batch read loops -/

/-- The `ARROWUINT64` loop and the `ARROWINT64` loop are the same
function, mirroring that the two C++ branches are textually identical. -/
theorem readBatchLoopU64_eq_64 : ∀ (fuel b : Nat) (vals : List Nat) (buf : List Int) (i : Nat),
    readBatchLoopU64 fuel b vals buf i = readBatchLoop64 fuel b vals buf i := by
  intro fuel
  induction fuel with
  | zero =>
      intro b vals buf i
      match vals with
      | [] => rfl
      | v :: rest => rfl
  | succ fuel ih =>
      intro b vals buf i
      match vals with
      | [] => rfl
      | v :: rest =>
          simp only [readBatchLoopU64, readBatchLoop64]
          exact ih b _ _ _

/-- With a positive batch size and fuel covering the chunk, the
`ARROWINT64` loop decodes the whole chunk into the buffer starting at
`i` and leaves the cursor right past it. -/
theorem readBatchLoop64_eq : ∀ (fuel b : Nat) (vals : List Nat) (buf : List Int) (i : Nat),
    1 ≤ b → vals.length ≤ fuel →
    readBatchLoop64 fuel b vals buf i
      = some (storeList buf i (vals.map toSigned64), i + vals.length) := by
  intro fuel
  induction fuel with
  | zero =>
      intro b vals buf i hb hlen
      match vals with
      | [] => simp [readBatchLoop64, storeList]
      | v :: rest => simp at hlen
  | succ fuel ih =>
      intro b vals buf i hb hlen
      match vals with
      | [] => simp [readBatchLoop64, storeList]
      | v :: rest =>
          simp only [readBatchLoop64]
          have hdrop : ((v :: rest).drop b).length ≤ fuel := by
            simp only [List.length_drop, List.length_cons] at hlen ⊢
            omega
          rw [ih b ((v :: rest).drop b) _ _ hb hdrop]
          have hsplit : (v :: rest).take b ++ (v :: rest).drop b = v :: rest :=
            List.take_append_drop b (v :: rest)
          have hlens : ((v :: rest).take b).length + ((v :: rest).drop b).length
              = (v :: rest).length := by
            rw [← List.length_append, hsplit]
          have hmapslen : i + ((v :: rest).take b).length
              = i + (((v :: rest).take b).map toSigned64).length := by
            simp
          rw [hmapslen, storeList_append]
          have hmaps : ((v :: rest).take b).map toSigned64
              ++ ((v :: rest).drop b).map toSigned64 = (v :: rest).map toSigned64 := by
            rw [← List.map_append, hsplit]
          rw [hmaps]
          have harith : i + (((v :: rest).take b).map toSigned64).length
              + ((v :: rest).drop b).length = i + (v :: rest).length := by
            simp only [List.length_map]
            omega
          rw [harith]

/-- Same characterization for the `ARROWINT32` loop: every chunk value
passes through the `int32_t` scratch buffer, so the buffer receives the
sign-extended `toSigned32` readings. -/
theorem readBatchLoop32_eq : ∀ (fuel b : Nat) (vals : List Nat) (buf : List Int) (i : Nat),
    1 ≤ b → vals.length ≤ fuel →
    readBatchLoop32 fuel b vals buf i
      = some (storeList buf i (vals.map toSigned32), i + vals.length) := by
  intro fuel
  induction fuel with
  | zero =>
      intro b vals buf i hb hlen
      match vals with
      | [] => simp [readBatchLoop32, storeList]
      | v :: rest => simp at hlen
  | succ fuel ih =>
      intro b vals buf i hb hlen
      match vals with
      | [] => simp [readBatchLoop32, storeList]
      | v :: rest =>
          simp only [readBatchLoop32]
          have hdrop : ((v :: rest).drop b).length ≤ fuel := by
            simp only [List.length_drop, List.length_cons] at hlen ⊢
            omega
          rw [ih b ((v :: rest).drop b) _ _ hb hdrop]
          have hsplit : (v :: rest).take b ++ (v :: rest).drop b = v :: rest :=
            List.take_append_drop b (v :: rest)
          have hlens : ((v :: rest).take b).length + ((v :: rest).drop b).length
              = (v :: rest).length := by
            rw [← List.length_append, hsplit]
          have hmapslen : i + ((v :: rest).take b).length
              = i + (((v :: rest).take b).map toSigned32).length := by
            simp
          rw [hmapslen, storeList_append]
          have hmaps : ((v :: rest).take b).map toSigned32
              ++ ((v :: rest).drop b).map toSigned32 = (v :: rest).map toSigned32 := by
            rw [← List.map_append, hsplit]
          rw [hmaps]
          have harith : i + (((v :: rest).take b).map toSigned32).length
              + ((v :: rest).drop b).length = i + (v :: rest).length := by
            simp only [List.length_map]
            omega
          rw [harith]

/-! ### The row-group loop on single-column files -/

/-- On a file whose row groups each carry one chunk, the `ARROWINT64` read
concatenates the decoded chunks into the buffer. -/
theorem readRowGroups_int64 (filename colname : String) (sch : List SchemaField)
    (b : Nat) (hidx : fieldIndex sch colname = some 0) (hb : 1 ≤ b) :
    ∀ (chunksL : List (List Nat)) (buf : List Int) (i : Nat),
      readRowGroups filename colname sch .tInt64 b
          (chunksL.map fun c => RowGroup.mk [c] c.length) buf i
        = some (.ok (storeList buf i (chunksL.flatten.map toSigned64))) := by
  intro chunksL
  induction chunksL with
  | nil => intro buf i; simp [readRowGroups, storeList]
  | cons c rest ih =>
      intro buf i
      have hloop := readBatchLoop64_eq c.length b c buf i hb (le_refl _)
      simp only [List.map_cons, readRowGroups, hidx, List.getD_cons_zero, hloop, if_true]
      rw [ih]
      have hlen : i + c.length = i + (c.map toSigned64).length := by simp
      rw [hlen, storeList_append, ← List.map_append, ← List.flatten_cons]

/-- Same concatenation for the `ARROWUINT64` read: its loop is the
`ARROWINT64` loop. -/
theorem readRowGroups_uint64 (filename colname : String) (sch : List SchemaField)
    (b : Nat) (hidx : fieldIndex sch colname = some 0) (hb : 1 ≤ b) :
    ∀ (chunksL : List (List Nat)) (buf : List Int) (i : Nat),
      readRowGroups filename colname sch .tUint64 b
          (chunksL.map fun c => RowGroup.mk [c] c.length) buf i
        = some (.ok (storeList buf i (chunksL.flatten.map toSigned64))) := by
  intro chunksL
  induction chunksL with
  | nil => intro buf i; simp [readRowGroups, storeList]
  | cons c rest ih =>
      intro buf i
      have hloop := readBatchLoop64_eq c.length b c buf i hb (le_refl _)
      have hcond : (TypeCode.tUint64 = TypeCode.tInt64) = False := eq_false (by decide)
      simp only [List.map_cons, readRowGroups, hidx, List.getD_cons_zero,
        readBatchLoopU64_eq_64, hloop, hcond, if_true, if_false]
      rw [ih]
      have hlen : i + c.length = i + (c.map toSigned64).length := by simp
      rw [hlen, storeList_append, ← List.map_append, ← List.flatten_cons]

/-- Same concatenation for the `ARROWINT32` read, through the scratch
buffer and the sign-extending widening cast. -/
theorem readRowGroups_int32 (filename colname : String) (sch : List SchemaField)
    (b : Nat) (hidx : fieldIndex sch colname = some 0) (hb : 1 ≤ b) :
    ∀ (chunksL : List (List Nat)) (buf : List Int) (i : Nat),
      readRowGroups filename colname sch .tInt32 b
          (chunksL.map fun c => RowGroup.mk [c] c.length) buf i
        = some (.ok (storeList buf i (chunksL.flatten.map toSigned32))) := by
  intro chunksL
  induction chunksL with
  | nil => intro buf i; simp [readRowGroups, storeList]
  | cons c rest ih =>
      intro buf i
      have hstep : (if TypeCode.tInt32 = TypeCode.tInt64 then readBatchLoop64 c.length b c buf i
            else if TypeCode.tInt32 = TypeCode.tUint64 then readBatchLoopU64 c.length b c buf i
            else readBatchLoop32 c.length b c buf i)
          = some (storeList buf i (c.map toSigned32), i + c.length) := by
        rw [if_neg (by decide), if_neg (by decide),
          readBatchLoop32_eq c.length b c buf i hb (le_refl _)]
      simp only [List.map_cons, readRowGroups, hidx, List.getD_cons_zero, hstep]
      rw [ih]
      have hlen : i + c.length = i + (c.map toSigned32).length := by simp
      rw [hlen, storeList_append, ← List.map_append, ← List.flatten_cons]

/-! ### Properties of the emitted chunks -/

/-- No input, no row groups. -/
theorem chunksF_nil (fuel r : Nat) : chunksF fuel r [] = [] := by
  cases fuel <;> rfl

/-- The emitted row groups concatenate back to the input. -/
theorem chunksF_flatten : ∀ (fuel r : Nat) (l : List Int), 1 ≤ r → l.length ≤ fuel →
    (chunksF fuel r l).flatten = l := by
  intro fuel
  induction fuel with
  | zero =>
      intro r l hr hl
      match l with
      | [] => rfl
      | v :: rest => simp at hl
  | succ fuel ih =>
      intro r l hr hl
      match l with
      | [] => rfl
      | v :: rest =>
          simp only [chunksF, List.flatten_cons]
          rw [ih r _ hr (by simp only [List.length_drop, List.length_cons] at hl ⊢; omega)]
          exact List.take_append_drop r (v :: rest)

/-- Row-group sizing: every group except the last holds exactly `r`
elements, and the last holds `length mod r` when the remainder is nonzero,
a full `r` when `r` divides the length. -/
theorem chunksF_split : ∀ (fuel r : Nat) (l : List Int), 1 ≤ r → l.length ≤ fuel → l ≠ [] →
    ∃ gs gl, chunksF fuel r l = gs ++ [gl] ∧ (∀ g ∈ gs, g.length = r) ∧
      gl.length = (if l.length % r = 0 then r else l.length % r) := by
  intro fuel
  induction fuel with
  | zero =>
      intro r l hr hl hne
      match l with
      | [] => exact absurd rfl hne
      | v :: rest => simp at hl
  | succ fuel ih =>
      intro r l hr hl hne
      match l with
      | [] => exact absurd rfl hne
      | v :: rest =>
          by_cases hsmall : (v :: rest).length ≤ r
          · refine ⟨[], (v :: rest).take r, ?_, ?_, ?_⟩
            · simp only [chunksF, List.nil_append]
              have hdrop : (v :: rest).drop r = [] := List.drop_eq_nil_of_le hsmall
              rw [hdrop, chunksF_nil]
            · intro g hg
              simp at hg
            · rw [List.take_of_length_le hsmall]
              by_cases heq : (v :: rest).length = r
              · rw [heq]
                simp
              · have hlt : (v :: rest).length < r := lt_of_le_of_ne hsmall heq
                rw [Nat.mod_eq_of_lt hlt]
                have hnz : ¬((v :: rest).length = 0) := by simp
                rw [if_neg hnz]
          · push_neg at hsmall
            have hdltlen : ((v :: rest).drop r).length ≤ fuel := by
              simp only [List.length_drop, List.length_cons] at hl ⊢
              omega
            have hdne : (v :: rest).drop r ≠ [] := by
              intro h0
              have hlen0 : ((v :: rest).drop r).length = 0 := by rw [h0]; rfl
              simp only [List.length_drop] at hlen0
              omega
            obtain ⟨gs, gl, hsplit, hgs, hgl⟩ := ih r _ hr hdltlen hdne
            refine ⟨(v :: rest).take r :: gs, gl, ?_, ?_, ?_⟩
            · simp only [chunksF, hsplit, List.cons_append]
            · intro g hg
              rcases List.mem_cons.mp hg with hg | hg
              · rw [hg, List.length_take]
                omega
              · exact hgs g hg
            · rw [hgl]
              have hmod : ((v :: rest).drop r).length % r = (v :: rest).length % r := by
                simp only [List.length_drop]
                exact (Nat.mod_eq_sub_mod (le_of_lt hsmall)).symm
              rw [hmod]

/-! ### Characterizing the write loop -/

/-- With every `WriteBatch` succeeding and a positive row-group size, the
write loop runs to completion and emits exactly the `chunksF` batches of
the input values starting at cursor `i`. -/
theorem writeLoop_ok_eq : ∀ (fuel : Nat) (values : List Int) (R numLeft i : Int)
    (acc : List (List Int)), 1 ≤ R → 0 ≤ i →
    numLeft = ((values.drop i.toNat).length : Int) →
    (values.drop i.toNat).length ≤ fuel →
    writeLoop (.ok ()) values R fuel numLeft i acc
      = some (.ok (acc ++ chunksF fuel R.toNat (values.drop i.toNat))) := by
  intro fuel
  induction fuel with
  | zero =>
      intro values R numLeft i acc hR hi hnl hfuel
      have h0 : (values.drop i.toNat).length = 0 := Nat.le_zero.mp hfuel
      have hdrop : values.drop i.toNat = [] := List.length_eq_zero.mp h0
      rw [hdrop, chunksF_nil]
      simp only [writeLoop]
      rw [if_pos (by omega : numLeft ≤ 0)]
      simp
  | succ fuel ih =>
      intro values R numLeft i acc hR hi hnl hfuel
      rcases hrest : values.drop i.toNat with _ | ⟨v, tail⟩
      · rw [hrest] at hnl
        simp only [List.length_nil, Nat.cast_zero] at hnl
        simp only [writeLoop]
        rw [if_pos (by omega : numLeft ≤ 0), chunksF_nil]
        simp
      · rw [hrest] at hnl hfuel
        have hnlpos : 0 < numLeft := by
          rw [hnl]
          simp only [List.length_cons]
          positivity
        simp only [writeLoop]
        rw [if_neg (by omega : ¬ numLeft ≤ 0)]
        by_cases hc : numLeft < R
        · rw [if_pos hc]
          have hbs : numLeft.toNat = (v :: tail).length := by omega
          have htake : (values.drop i.toNat).take numLeft.toNat = v :: tail := by
            rw [hrest, hbs, List.take_length]
          have hiadd : (i + numLeft).toNat = i.toNat + numLeft.toNat := by omega
          have hdrop2 : values.drop (i + numLeft).toNat = [] := by
            rw [hiadd, ← List.drop_drop, hrest, hbs, List.drop_length]
          have hrec := ih values R (numLeft - numLeft) (i + numLeft) (acc ++ [v :: tail])
            hR (by omega) (by rw [hdrop2]; simp) (by rw [hdrop2]; simp)
          rw [htake, hrec, hdrop2, chunksF_nil, List.append_nil]
          have hRnat : (v :: tail).length < R.toNat := by omega
          simp only [chunksF]
          rw [List.take_of_length_le (le_of_lt hRnat),
            List.drop_eq_nil_of_le (le_of_lt hRnat), chunksF_nil]
        · rw [if_neg hc]
          have hRle : R ≤ numLeft := le_of_not_lt hc
          have hRnatle : R.toNat ≤ (v :: tail).length := by omega
          have hiadd : (i + R).toNat = i.toNat + R.toNat := by omega
          have hdrop2 : values.drop (i + R).toNat = (v :: tail).drop R.toNat := by
            rw [hiadd, ← List.drop_drop, hrest]
          have hnl2 : numLeft - R = (((values.drop (i + R).toNat).length : Nat) : Int) := by
            rw [hdrop2]
            simp only [List.length_drop]
            omega
          have hfuel2 : (values.drop (i + R).toNat).length ≤ fuel := by
            rw [hdrop2]
            simp only [List.length_drop]
            omega
          have hrec := ih values R (numLeft - R) (i + R)
            (acc ++ [(v :: tail).take R.toNat]) hR (by omega) hnl2 hfuel2
          rw [hrest, hrec, hdrop2]
          simp only [chunksF]
          rw [List.append_assoc]
          rfl

/-- With `rowGroupSize ≥ 1`, fuel `numLeft.toNat` suffices: every
iteration writes `min(numLeft, rowGroupSize) ≥ 1` values, so the loop
exits (whatever each `WriteBatch` does). -/
theorem writeLoop_total : ∀ (fuel : Nat) (wb : Except String Unit) (values : List Int)
    (R numLeft i : Int) (acc : List (List Int)), 1 ≤ R → numLeft.toNat ≤ fuel →
    writeLoop wb values R fuel numLeft i acc ≠ none := by
  intro fuel
  induction fuel with
  | zero =>
      intro wb values R numLeft i acc hR hfuel
      have hnl : numLeft ≤ 0 := by omega
      simp only [writeLoop]
      rw [if_pos hnl]
      simp
  | succ fuel ih =>
      intro wb values R numLeft i acc hR hfuel
      simp only [writeLoop]
      by_cases hnl : numLeft ≤ 0
      · rw [if_pos hnl]
        simp
      · rw [if_neg hnl]
        match wb with
        | .error m => simp
        | .ok _ =>
            by_cases hc : numLeft < R
            · have hfuel2 : (numLeft - numLeft).toNat ≤ fuel := by omega
              rw [if_pos hc]
              exact ih (.ok ()) values R (numLeft - numLeft) (i + numLeft) _ hR hfuel2
            · have hfuel2 : (numLeft - R).toNat ≤ fuel := by omega
              rw [if_neg hc]
              exact ih (.ok ()) values R (numLeft - R) (i + R) _ hR hfuel2

/-- With `rowGroupSize ≤ 0` and work remaining, `batchSize` is the
nonpositive `rowGroupSize`, `numLeft` never decreases, and the loop never
exits: every fuel bound runs dry. -/
theorem writeLoop_nonpos_none : ∀ (fuel : Nat) (values : List Int)
    (R numLeft i : Int) (acc : List (List Int)), R ≤ 0 → 0 < numLeft →
    writeLoop (.ok ()) values R fuel numLeft i acc = none := by
  intro fuel
  induction fuel with
  | zero =>
      intro values R numLeft i acc hR hnl
      simp only [writeLoop]
      rw [if_neg (by omega : ¬ numLeft ≤ 0)]
  | succ fuel ih =>
      intro values R numLeft i acc hR hnl
      simp only [writeLoop]
      rw [if_neg (by omega : ¬ numLeft ≤ 0)]
      have hc : ¬ numLeft < R := by omega
      rw [if_neg hc]
      exact ih values R (numLeft - R) (i + R) _ hR (by omega)

/-- A name matching no schema field has no index (`GetFieldIndex == -1`). -/
theorem fieldIndex_eq_none : ∀ (sch : List SchemaField) (colname : String),
    (∀ fld ∈ sch, fld.name ≠ colname) → fieldIndex sch colname = none := by
  intro sch colname h
  induction sch with
  | nil => rfl
  | cons f rest ih =>
      simp only [fieldIndex]
      rw [if_neg (h f (List.mem_cons_self f rest))]
      rw [ih (fun fld hfld => h fld (List.mem_cons_of_mem f hfld))]
      rfl

/-- The row groups the writer builds, viewed as single-chunk groups over
the encoded chunk contents. -/
theorem writer_rowGroups_shape (groups : List (List Int)) :
    groups.map (fun g => RowGroup.mk [g.map toBits64] g.length)
      = (groups.map (fun g => g.map toBits64)).map (fun c => RowGroup.mk [c] c.length) := by
  rw [List.map_map]
  apply List.map_congr_left
  intro g hg
  simp

/-- Encoding a list of in-range `int64_t` values and decoding the stored
patterns returns the list. -/
theorem map_toSigned64_toBits64 : ∀ (values : List Int),
    (∀ v ∈ values, -(2 ^ 63) ≤ v ∧ v < 2 ^ 63) →
    (values.map toBits64).map toSigned64 = values := by
  intro values h
  induction values with
  | nil => rfl
  | cons v rest ih =>
      simp only [List.map_cons, List.cons.injEq]
      constructor
      · have hv := h v (List.mem_cons_self v rest)
        exact toSigned64_toBits64 v hv.1 hv.2
      · exact ih (fun w hw => h w (List.mem_cons_of_mem v hw))

/-- `cpp_writeColumnToParquet` in the all-library-calls-succeed
environment, with `numelems` the length of the caller's buffer: the
written file holds one column of the declared type and the `chunksF`
row groups. -/
theorem cpp_writeColumn_ok (filename dsetname : String) (values : List Int)
    (colnum R dtype : Int) (hR : 1 ≤ R) :
    cpp_writeColumnToParquet okEnv filename values colnum dsetname
        ((values.length : Nat) : Int) R dtype
      = .success ⟨[⟨dsetname, if dtype = 1 then ArrowTypeId.int64 else ArrowTypeId.uint64⟩],
          (chunksF values.length R.toNat values).map
            (fun g => RowGroup.mk [g.map toBits64] g.length)⟩ := by
  have hloop := writeLoop_ok_eq values.length values R ((values.length : Nat) : Int) 0 []
    hR le_rfl (by simp) (by simp)
  simp only [Int.toNat_zero, List.drop_zero, List.nil_append] at hloop
  simp only [cpp_writeColumnToParquet, okEnv, Int.toNat_natCast, hloop]

/-- The row-group read loop performs the same buffer writes for a column
resolved as `ARROWUINT64` as for one resolved as `ARROWINT64`, on any file
contents whatsoever. -/
theorem readRowGroups_uint64_eq_int64 : ∀ (filename colname : String)
    (sch : List SchemaField) (b : Nat) (gs : List RowGroup) (buf : List Int) (i : Nat),
    readRowGroups filename colname sch .tUint64 b gs buf i
      = readRowGroups filename colname sch .tInt64 b gs buf i := by
  intro filename colname sch b gs
  induction gs with
  | nil => intro buf i; rfl
  | cons g rest ih =>
      intro buf i
      simp only [readRowGroups]
      match hfi : fieldIndex sch colname with
      | none => rfl
      | some idx =>
          simp only [if_true, readBatchLoopU64_eq_64]
          rcases hstep : readBatchLoop64 (g.chunks.getD idx []).length b
              (g.chunks.getD idx []) buf i with _ | ⟨buf2, i2⟩
          · rfl
          · exact ih buf2 i2

/-- Storing a whole batch over a scratch buffer of exactly its size yields
the batch. -/
theorem storeList_replicate (xs : List Int) :
    storeList (List.replicate xs.length 0) 0 xs = xs := by
  rw [storeList_full xs _ 0 (by simp)]
  simp

/-- Reading the single `INT64` column of a file made of single-chunk row
groups decodes and concatenates all chunks into the buffer. -/
theorem readColumn_single_int64 (filename colname : String) (chunksL : List (List Nat))
    (buf : List Int) (n b : Int) (hb : 1 ≤ b) :
    cpp_readColumnByName filename
        ⟨[⟨colname, .int64⟩], chunksL.map (fun c => RowGroup.mk [c] c.length)⟩
        buf colname n b
      = some (.ok (storeList buf 0 (chunksL.flatten.map toSigned64))) := by
  have hidx : fieldIndex [⟨colname, ArrowTypeId.int64⟩] colname = some 0 := by
    simp [fieldIndex]
  have hty : cpp_getType filename
      ⟨[⟨colname, .int64⟩], chunksL.map (fun c => RowGroup.mk [c] c.length)⟩ colname
      = (.tInt64, none) := by
    simp [cpp_getType, fieldIndex]
  have hrows := readRowGroups_int64 filename colname [⟨colname, .int64⟩] b.toNat hidx
    (by omega) chunksL buf 0
  simp only [cpp_readColumnByName, hty, hrows]
  simp

/-- Reading the single `INT32` column of a file made of single-chunk row
groups widens and concatenates all chunks into the buffer. -/
theorem readColumn_single_int32 (filename colname : String) (chunksL : List (List Nat))
    (buf : List Int) (n b : Int) (hb : 1 ≤ b) :
    cpp_readColumnByName filename
        ⟨[⟨colname, .int32⟩], chunksL.map (fun c => RowGroup.mk [c] c.length)⟩
        buf colname n b
      = some (.ok (storeList buf 0 (chunksL.flatten.map toSigned32))) := by
  have hidx : fieldIndex [⟨colname, ArrowTypeId.int32⟩] colname = some 0 := by
    simp [fieldIndex]
  have hty : cpp_getType filename
      ⟨[⟨colname, .int32⟩], chunksL.map (fun c => RowGroup.mk [c] c.length)⟩ colname
      = (.tInt32, none) := by
    simp [cpp_getType, fieldIndex]
  have hrows := readRowGroups_int32 filename colname [⟨colname, .int32⟩] b.toNat hidx
    (by omega) chunksL buf 0
  simp only [cpp_readColumnByName, hty, hrows]
  simp

/-! ### The claims -/

/-- C1: for every element count N ≥ 0 and row-group size R ≥ 1 (N not
necessarily a multiple of R), writing N in-range 64-bit signed values with
`writeColumn` and reading the column back with `readColumn` (any positive
batch size, any `numElems`) yields exactly the original N values in their
original order. -/
theorem writeColumn_readColumn_roundtrip (values : List Int) (R b numElems colnum : Int)
    (filename dsetname : String) (hR : 1 ≤ R) (hb : 1 ≤ b)
    (hrange : ∀ v ∈ values, -(2 ^ 63) ≤ v ∧ v < 2 ^ 63) :
    ∃ f : ParquetFile,
      cpp_writeColumnToParquet okEnv filename values colnum dsetname
          ((values.length : Nat) : Int) R 1 = .success f
      ∧ cpp_readColumnByName filename f (List.replicate values.length 0) dsetname
          numElems b = some (.ok values) := by
  have hw := cpp_writeColumn_ok filename dsetname values colnum R 1 hR
  rw [if_pos rfl] at hw
  refine ⟨_, hw, ?_⟩
  rw [writer_rowGroups_shape]
  rw [readColumn_single_int64 filename dsetname
    ((chunksF values.length R.toNat values).map (fun g => g.map toBits64))
    (List.replicate values.length 0) numElems b hb]
  have hflat : (((chunksF values.length R.toNat values).map
      (fun g => g.map toBits64)).flatten).map toSigned64 = values := by
    rw [← List.map_flatten, chunksF_flatten values.length R.toNat values (by omega) le_rfl,
      map_toSigned64_toBits64 values hrange]
  rw [hflat, storeList_replicate values]

/-- C1 witness at N = 3, R = 2 (not a multiple), batch size 1. -/
theorem writeColumn_readColumn_roundtrip_witness :
    ∃ f : ParquetFile,
      cpp_writeColumnToParquet okEnv "data.parquet" [1, -2, 3] 0 "col"
          ((List.length [1, -2, 3] : Nat) : Int) 2 1 = .success f
      ∧ cpp_readColumnByName "data.parquet" f
          (List.replicate (List.length ([1, -2, 3] : List Int)) 0) "col"
          0 1 = some (.ok [1, -2, 3]) :=
  writeColumn_readColumn_roundtrip [1, -2, 3] 2 1 0 0 "data.parquet" "col"
    (by norm_num) (by norm_num) (by decide)

/-- C2: the decoding performed for a `UInt64` column is identical to the
decoding performed for an `Int64` column — the batch loops are the same
function and the row-group loop makes the same buffer writes on any file —
and a stored 64-bit pattern is returned bit-for-bit, so the caller's
unsigned reinterpretation recovers it (e.g. `2^64 − 1`). -/
theorem uint64_decode_no_transform :
    (∀ (fuel b : Nat) (vals : List Nat) (buf : List Int) (i : Nat),
       readBatchLoopU64 fuel b vals buf i = readBatchLoop64 fuel b vals buf i)
    ∧ (∀ (filename colname : String) (sch : List SchemaField) (b : Nat)
         (gs : List RowGroup) (buf : List Int) (i : Nat),
       readRowGroups filename colname sch .tUint64 b gs buf i
         = readRowGroups filename colname sch .tInt64 b gs buf i)
    ∧ (∀ p : Nat, p < 2 ^ 64 → toBits64 (toSigned64 p) = p) :=
  ⟨readBatchLoopU64_eq_64, readRowGroups_uint64_eq_int64, toBits64_toSigned64⟩

/-- C2 witness: the stored pattern of `2^64 − 1` survives decode plus
unsigned reinterpretation unchanged. -/
theorem uint64_decode_no_transform_witness :
    toBits64 (toSigned64 (2 ^ 64 - 1)) = 2 ^ 64 - 1 :=
  uint64_decode_no_transform.2.2 (2 ^ 64 - 1) (by norm_num)

/-- C3: evidence against the claim that every `writeColumn` failure
surfaces as a tagged error result.  In the code, a failed
`FileOutputStream::Open` (`PARQUET_ASSIGN_OR_THROW`, line 176), a throwing
`WriteBatch` (line 205) and the unchecked `file_writer->Close()`
(line 210) all escape as C++ exceptions through the `extern "C"` boundary;
only a failure of `out_file->Close()` (line 211, `ARROWSTATUS_OK`) is
returned as `ARROWERROR` with a message. -/
theorem writeColumn_failure_escapes_boundary :
    cpp_writeColumnToParquet ⟨.error "open failed", .ok (), .ok (), .ok ()⟩
        "data.parquet" [7] 0 "col" 1 1 1 = .thrown "open failed"
    ∧ cpp_writeColumnToParquet ⟨.ok (), .error "write batch failed", .ok (), .ok ()⟩
        "data.parquet" [7] 0 "col" 1 1 1 = .thrown "write batch failed"
    ∧ cpp_writeColumnToParquet ⟨.ok (), .ok (), .error "writer close failed", .ok ()⟩
        "data.parquet" [7] 0 "col" 1 1 1 = .thrown "writer close failed"
    ∧ cpp_writeColumnToParquet ⟨.ok (), .ok (), .ok (), .error "stream close failed"⟩
        "data.parquet" [7] 0 "col" 1 1 1 = .taggedError "stream close failed" :=
  ⟨rfl, rfl, rfl, rfl⟩

/-- C4: a 32-bit signed column is widened to 64 bits with sign extension
through the native-width scratch buffer: reading delivers `toSigned32` of
each stored pattern, and the stored pattern of `−1` comes back as `−1`,
not `4294967295`. -/
theorem int32_sign_extension (filename colname : String) (chunksL : List (List Nat))
    (n b : Int) (hb : 1 ≤ b) :
    cpp_readColumnByName filename
        ⟨[⟨colname, .int32⟩], chunksL.map (fun c => RowGroup.mk [c] c.length)⟩
        (List.replicate chunksL.flatten.length 0) colname n b
      = some (.ok (chunksL.flatten.map toSigned32))
    ∧ toSigned32 (2 ^ 32 - 1) = -1
    ∧ toSigned32 (2 ^ 32 - 1) ≠ 4294967295 := by
  refine ⟨?_, toSigned32_neg_one, by decide⟩
  rw [readColumn_single_int32 filename colname chunksL _ n b hb]
  have hrep : List.replicate chunksL.flatten.length (0 : Int)
      = List.replicate (chunksL.flatten.map toSigned32).length 0 := by
    rw [List.length_map]
  rw [hrep, storeList_replicate]

/-- C4 witness: one row group holding the stored pattern of 32-bit `−1`. -/
theorem int32_sign_extension_witness :
    cpp_readColumnByName "f.parquet"
        ⟨[⟨"col", .int32⟩],
          ([[2 ^ 32 - 1]] : List (List Nat)).map (fun c => RowGroup.mk [c] c.length)⟩
        (List.replicate ([[2 ^ 32 - 1]] : List (List Nat)).flatten.length 0) "col" 0 1
      = some (.ok (([[2 ^ 32 - 1]] : List (List Nat)).flatten.map toSigned32))
    ∧ toSigned32 (2 ^ 32 - 1) = -1
    ∧ toSigned32 (2 ^ 32 - 1) ≠ 4294967295 :=
  int32_sign_extension "f.parquet" "col" [[2 ^ 32 - 1]] 0 1 (by norm_num)

/-- C5: the row-group emission loop splits `values[0..N)` into consecutive
groups of exactly `rowGroupSize` elements, the final group holding
`N mod rowGroupSize` elements when the remainder is nonzero and a full
`rowGroupSize` when it divides evenly; the groups concatenate back to the
input (and no groups are emitted for empty input). -/
theorem writeColumn_rowGroup_sizes (values : List Int) (R : Int) (hR : 1 ≤ R) :
    ∃ groups : List (List Int),
      writeLoop (.ok ()) values R values.length ((values.length : Nat) : Int) 0 []
          = some (.ok groups)
      ∧ groups.flatten = values
      ∧ (values = [] → groups = [])
      ∧ (values ≠ [] → ∃ gs gl, groups = gs ++ [gl]
          ∧ (∀ g ∈ gs, g.length = R.toNat)
          ∧ gl.length = (if values.length % R.toNat = 0
              then R.toNat else values.length % R.toNat)) := by
  have hloop := writeLoop_ok_eq values.length values R ((values.length : Nat) : Int) 0 []
    hR le_rfl (by simp) (by simp)
  simp only [Int.toNat_zero, List.drop_zero, List.nil_append] at hloop
  refine ⟨_, hloop, chunksF_flatten values.length R.toNat values (by omega) le_rfl, ?_, ?_⟩
  · intro h
    rw [h, chunksF_nil]
  · intro hne
    exact chunksF_split values.length R.toNat values (by omega) le_rfl hne

/-- C5 witness at N = 5, R = 2: groups of sizes 2, 2, 1. -/
theorem writeColumn_rowGroup_sizes_witness :
    ∃ groups : List (List Int),
      writeLoop (.ok ()) [1, 2, 3, 4, 5] 2 (List.length ([1, 2, 3, 4, 5] : List Int))
          ((List.length ([1, 2, 3, 4, 5] : List Int) : Nat) : Int) 0 []
          = some (.ok groups)
      ∧ groups.flatten = [1, 2, 3, 4, 5]
      ∧ (([1, 2, 3, 4, 5] : List Int) = [] → groups = [])
      ∧ (([1, 2, 3, 4, 5] : List Int) ≠ [] → ∃ gs gl, groups = gs ++ [gl]
          ∧ (∀ g ∈ gs, g.length = (2 : Int).toNat)
          ∧ gl.length = (if List.length ([1, 2, 3, 4, 5] : List Int) % (2 : Int).toNat = 0
              then (2 : Int).toNat
              else List.length ([1, 2, 3, 4, 5] : List Int) % (2 : Int).toNat)) :=
  writeColumn_rowGroup_sizes [1, 2, 3, 4, 5] 2 (by norm_num)

/-- C6: `getType` on a column name absent from the schema returns the
tagged `ARROWERROR` result with a heap message that contains both the file
path and the requested column name. -/
theorem getType_absent_column_message (filename colname : String) (file : ParquetFile)
    (habsent : ∀ fld ∈ file.schema, fld.name ≠ colname) :
    ∃ msg : String,
      cpp_getType filename file colname = (.tError, some msg)
      ∧ msg = "Dataset: " ++ colname ++ " does not exist in file: " ++ filename
      ∧ (∃ pre post : String, msg = pre ++ filename ++ post)
      ∧ (∃ pre post : String, msg = pre ++ colname ++ post) := by
  have hidx := fieldIndex_eq_none file.schema colname habsent
  refine ⟨"Dataset: " ++ colname ++ " does not exist in file: " ++ filename, ?_, rfl,
    ⟨"Dataset: " ++ colname ++ " does not exist in file: ", "", ?_⟩,
    ⟨"Dataset: ", " does not exist in file: " ++ filename, ?_⟩⟩
  · simp only [cpp_getType, hidx]
  · simp [String.append_assoc]
  · simp [String.append_assoc]

/-- C6 witness: a one-column file asked for a different column name. -/
theorem getType_absent_column_message_witness :
    ∃ msg : String,
      cpp_getType "f.parquet" ⟨[⟨"a", .int64⟩], []⟩ "b" = (.tError, some msg)
      ∧ msg = "Dataset: " ++ "b" ++ " does not exist in file: " ++ "f.parquet"
      ∧ (∃ pre post : String, msg = pre ++ "f.parquet" ++ post)
      ∧ (∃ pre post : String, msg = pre ++ "b" ++ post) :=
  getType_absent_column_message "f.parquet" "b" ⟨[⟨"a", .int64⟩], []⟩ (by decide)

/-- C7: when the resolved physical type is outside the supported set
(`Timestamp` or undefined), `readColumn` returns the `ARROWUNDEFINED`
result and the caller's buffer is returned exactly as it was passed in —
no element is written. -/
theorem readColumn_unsupported_type_untouched (filename colname : String)
    (file : ParquetFile) (buf : List Int) (n b : Int)
    (h : (cpp_getType filename file colname).1 = .tTimestamp
       ∨ (cpp_getType filename file colname).1 = .tUndefined) :
    cpp_readColumnByName filename file buf colname n b
      = some (.undef (cpp_getType filename file colname).2 buf) := by
  simp only [cpp_readColumnByName]
  rcases h with h | h <;> rw [h, if_neg (by decide)]

/-- C7 witness: a timestamp column leaves the buffer `[9, 9]` untouched. -/
theorem readColumn_unsupported_type_untouched_witness :
    cpp_readColumnByName "f.parquet" ⟨[⟨"t", .timestamp⟩], []⟩ [9, 9] "t" 0 1
      = some (.undef (cpp_getType "f.parquet" ⟨[⟨"t", .timestamp⟩], []⟩ "t").2 [9, 9]) :=
  readColumn_unsupported_type_untouched "f.parquet" "t" ⟨[⟨"t", .timestamp⟩], []⟩
    [9, 9] 0 1 (Or.inl (by decide))

/-- C8: after `writeColumn` successfully writes N values, `getNumRows`
on the written file returns exactly N — the sum of the row counts of the
emitted row groups — including N = 0. -/
theorem getNumRows_after_write (filename dsetname : String) (values : List Int)
    (colnum R dtype : Int) (hR : 1 ≤ R) :
    ∃ f : ParquetFile,
      cpp_writeColumnToParquet okEnv filename values colnum dsetname
          ((values.length : Nat) : Int) R dtype = .success f
      ∧ cpp_getNumRows f = ((values.length : Nat) : Int) := by
  refine ⟨_, cpp_writeColumn_ok filename dsetname values colnum R dtype hR, ?_⟩
  have hsum : ((chunksF values.length R.toNat values).map (fun g => g.length)).sum
      = values.length := by
    rw [← List.length_flatten, chunksF_flatten values.length R.toNat values (by omega) le_rfl]
  simp only [cpp_getNumRows, List.map_map, Function.comp]
  exact_mod_cast hsum

/-- C8 witness at N = 2, R = 1, unsigned declared type. -/
theorem getNumRows_after_write_witness :
    ∃ f : ParquetFile,
      cpp_writeColumnToParquet okEnv "d.parquet" [4, 5] 0 "c"
          ((List.length ([4, 5] : List Int) : Nat) : Int) 1 2 = .success f
      ∧ cpp_getNumRows f = ((List.length ([4, 5] : List Int) : Nat) : Int) :=
  getNumRows_after_write "d.parquet" "c" [4, 5] 0 1 2 (by norm_num)

/-- C9: the row-group emission loop exits for every input when
`rowGroupSize ≥ 1` (fuel `numLeft.toNat` always suffices, whatever each
`WriteBatch` returns), while for `rowGroupSize ≤ 0` with work remaining
the loop variable never decreases and no fuel bound is ever enough. -/
theorem writeLoop_termination :
    (∀ (wb : Except String Unit) (values : List Int) (R numLeft i : Int)
       (acc : List (List Int)) (fuel : Nat), 1 ≤ R → numLeft.toNat ≤ fuel →
       writeLoop wb values R fuel numLeft i acc ≠ none)
    ∧ (∀ (values : List Int) (R numLeft i : Int) (acc : List (List Int)) (fuel : Nat),
       R ≤ 0 → 0 < numLeft →
       writeLoop (.ok ()) values R fuel numLeft i acc = none) :=
  ⟨fun wb values R numLeft i acc fuel hR hf =>
     writeLoop_total fuel wb values R numLeft i acc hR hf,
   fun values R numLeft i acc fuel hR hn =>
     writeLoop_nonpos_none fuel values R numLeft i acc hR hn⟩

/-- C9 witness: the loop finishes at R = 2 with three values, and returns
no result at R = 0 with one value left for any fuel (here 5). -/
theorem writeLoop_termination_witness :
    writeLoop (.ok ()) [1, 2, 3] 2 3 3 0 [] ≠ none
    ∧ writeLoop (.ok ()) [1] 0 5 1 0 [] = none :=
  ⟨writeLoop_termination.1 (.ok ()) [1, 2, 3] 2 3 0 [] 3 (by norm_num) (by decide),
   writeLoop_termination.2 [1] 0 1 0 [] 5 (by norm_num) (by norm_num)⟩

/-- C10: `readColumn` ignores its `numElems` argument entirely: two calls
differing only in `numElems` make the same buffer writes and return the
same result, since the element count read comes from the file's row
groups alone. -/
theorem readColumn_numElems_independent (filename : String) (file : ParquetFile)
    (buf : List Int) (colname : String) (n1 n2 b : Int) :
    cpp_readColumnByName filename file buf colname n1 b
      = cpp_readColumnByName filename file buf colname n2 b := rfl
